import Mathlib

/-!
Periodic grid-scatter interpolation and 1-D linear interpolation.

A shallow embedding of `field/interp3d/common.hpp`, `field/interp3d/idw.cpp` and
`field/interp1d/interp1d.cpp`.

* The scalar type `real` of the sources is a linearly ordered field `K` ("exact arithmetic");
  `std::sqrt` and the machine epsilon are passed in, and the theorems instantiate them with
  `Real.sqrt` on `ℝ` and an arbitrary `eps`.
* `size_t` values are natural numbers; every `size_t` operation of the sources is taken
  modulo `2 ^ 64`.
* The raw pointers handed to `fwd` are index maps `Nat → K`; the function only ever reads the
  particle arrays below `x_max * x_max * x_max`.
-/

namespace SynthMagTurb

/-! ## `size_t` arithmetic -/

/-- Number of values of a `size_t`. -/
def SIZE_MOD : Nat := 2 ^ 64

/-- The `size_t` sum `a + b`. -/
def uadd (a b : Nat) : Nat := (a + b) % SIZE_MOD

/-- The `size_t` difference `a - b` of two `size_t` values: it wraps around below zero. -/
def usub (a b : Nat) : Nat := (a + SIZE_MOD - b) % SIZE_MOD

/-- The `size_t` product `a * b`. -/
def umul (a b : Nat) : Nat := (a * b) % SIZE_MOD

/-! ## `common.hpp` -/

/-- The struct `grid_coord`: a cell index `c` and a distance `d` in grid units. -/
structure grid_coord (K : Type) where
  c : Nat
  d : K

section Kernels

variable {K : Type} [LinearOrderedField K]

/-- The function `dist3sq`: sum of the squares of the three per-axis distances. -/
def dist3sq (xg yg zg : grid_coord K) : K :=
  xg.d * xg.d + yg.d * yg.d + zg.d * zg.d

/-- The function `c2i`: `xg.c * x_max * x_max + yg.c * x_max + zg.c` in `size_t`. -/
def c2i (xg yg zg : grid_coord K) (x_max : Nat) : Nat :=
  uadd (uadd (umul (umul xg.c x_max) x_max) (umul yg.c x_max)) zg.c

variable [FloorRing K]

/-- The library function `std::trunc`: rounding towards zero. -/
def trunc (x : K) : Int := if 0 ≤ x then ⌊x⌋ else ⌈x⌉

/-- The library function `std::fmod`: `x - trunc (x / y) * y`, which has the sign of `x`. -/
def fmod (x y : K) : K := x - (trunc (x / y) : K) * y

/-- The function `trunc_coord`. -/
def trunc_coord (c dc : K) (c_max : Nat) : grid_coord K :=
  let c1 : K := fmod (c / dc) (c_max : K)
  let c2 : K := if c1 < 0 then c1 + (c_max : K) else c1
  let c0 : Nat := (trunc c2).toNat
  ⟨c0, c2 - (c0 : K)⟩

/-- Entry pushed by the first loop of `coords_on_grid` at loop counter `q`. -/
def below_entry (g : grid_coord K) (c_max q : Nat) : grid_coord K :=
  ⟨if g.c < q then usub c_max (usub q g.c) else usub g.c q, g.d + (q : K)⟩

/-- Entry pushed by the second loop of `coords_on_grid` at loop counter `q`. -/
def above_entry (g : grid_coord K) (c_max q : Nat) : grid_coord K :=
  ⟨if uadd g.c q ≥ c_max then usub (uadd g.c q) c_max else uadd g.c q, -g.d + (q : K)⟩

/-- The function `coords_on_grid`.  The first loop runs `q` from `dq - 1` (a `size_t`
difference) down to `1`, then the mapped coordinate is pushed, then the second loop runs `q`
from `1` up to `dq`. -/
def coords_on_grid (c dc : K) (dq c_max : Nat) : List (grid_coord K) :=
  let g := trunc_coord c dc c_max
  ((List.range (usub dq 1)).reverse.map fun i => below_entry g c_max (i + 1))
    ++ [g]
    ++ ((List.range dq).map fun i => above_entry g c_max (i + 1))

/-- The stencil entry at the signed step `s` from the mapped coordinate `g`: the entry of the
first loop with counter `-s` for `s < 0`, `g` itself for `s = 0`, and the entry of the second
loop with counter `s` for `s > 0`. -/
def stencil_entry (g : grid_coord K) (c_max : Nat) (s : Int) : grid_coord K :=
  if s < 0 then below_entry g c_max s.natAbs
  else if s = 0 then g
  else above_entry g c_max s.natAbs

end Kernels

/-! ## `idw.cpp` -/

/-- The four output buffers of `fwd`. -/
structure Grid (K : Type) where
  resx : Nat → K
  resy : Nat → K
  resz : Nat → K
  weights : Nat → K

section Scatter

variable {K : Type} [LinearOrderedField K] [FloorRing K]

/-- The loop bound `size = x_max * x_max * x_max` of `fwd`. -/
def grid_size (x_max : Nat) : Nat := umul (umul x_max x_max) x_max

/-- The weight `real{1.0} / std::sqrt(dsq + eps * eps)` computed in the innermost loop of
`fwd`. -/
def idw_weight (sqrt : K → K) (eps dsq : K) : K := 1 / sqrt (dsq + eps * eps)

/-- Body of the innermost loop of `fwd` for the stencil triple `(xg, yg, zg)` of a particle
with quantity `(ax, ay, az)`. -/
def scatter_cell (sqrt : K → K) (eps dq : K) (x_max : Nat) (ax ay az : K)
    (g : Grid K) (xg yg zg : grid_coord K) : Grid K :=
  let dsq := dist3sq xg yg zg
  if dsq < dq * dq then
    let idc := c2i xg yg zg x_max
    let weight := idw_weight sqrt eps dsq
    { resx := Function.update g.resx idc (g.resx idc + weight * ax)
      resy := Function.update g.resy idc (g.resy idc + weight * ay)
      resz := Function.update g.resz idc (g.resz idc + weight * az)
      weights := Function.update g.weights idc (g.weights idc + weight) }
  else g

/-- Body of the first parallel loop of `fwd` for one particle at `(x, y, z)`. -/
def scatter_particle (sqrt : K → K) (eps dx dq : K) (x_max : Nat)
    (x y z ax ay az : K) (g : Grid K) : Grid K :=
  let xgrid := coords_on_grid x dx ⌈|dq|⌉₊ x_max
  let ygrid := coords_on_grid y dx ⌈|dq|⌉₊ x_max
  let zgrid := coords_on_grid z dx ⌈|dq|⌉₊ x_max
  xgrid.foldl (fun g xg =>
    ygrid.foldl (fun g yg =>
      zgrid.foldl (fun g zg => scatter_cell sqrt eps dq x_max ax ay az g xg yg zg) g) g) g

/-- The first loop of `fwd` (scatter phase), run sequentially over `id = 0, ..., size - 1`. -/
def scatter (sqrt : K → K) (eps : K) (xc yc zc ax ay az : Nat → K) (dx dq : K) (x_max : Nat)
    (g : Grid K) : Grid K :=
  (List.range (grid_size x_max)).foldl (fun g id =>
    scatter_particle sqrt eps dx dq x_max (xc id) (yc id) (zc id) (ax id) (ay id) (az id) g) g

/-- Body of the second loop of `fwd` for the cell `id`. -/
def normalize_cell (g : Grid K) (id : Nat) : Grid K :=
  if g.weights id ≠ 0 then
    { g with
      resx := Function.update g.resx id (g.resx id / g.weights id)
      resy := Function.update g.resy id (g.resy id / g.weights id)
      resz := Function.update g.resz id (g.resz id / g.weights id) }
  else g

/-- The second loop of `fwd` (normalize phase), run over `id = 0, ..., size - 1`. -/
def normalize (x_max : Nat) (g : Grid K) : Grid K :=
  (List.range (grid_size x_max)).foldl normalize_cell g

/-- The function `fwd`: scatter, then normalize. -/
def fwd (sqrt : K → K) (eps : K) (xc yc zc ax ay az : Nat → K) (g : Grid K)
    (dx dq : K) (x_max : Nat) : Grid K :=
  normalize x_max (scatter sqrt eps xc yc zc ax ay az dx dq x_max g)

end Scatter

/-! ## The contributions received by a cell, stated without the loops -/

section Contributions

variable {K : Type} [LinearOrderedField K] [FloorRing K]

/-- The stencil triples that the three nested loops of `fwd` visit for a particle at
`(x, y, z)`, in loop order. -/
def stencil_triples (dx dq : K) (x_max : Nat) (x y z : K) :
    List (grid_coord K × grid_coord K × grid_coord K) :=
  (coords_on_grid x dx ⌈|dq|⌉₊ x_max).flatMap fun xg =>
    (coords_on_grid y dx ⌈|dq|⌉₊ x_max).flatMap fun yg =>
      (coords_on_grid z dx ⌈|dq|⌉₊ x_max).map fun zg => (xg, yg, zg)

/-- The accepted stencil triples of a particle at `(x, y, z)` whose linear index is `c`:
those with `dist3sq < dq * dq` and `c2i = c`. -/
def accepted_at (dx dq : K) (x_max : Nat) (x y z : K) (c : Nat) :
    List (grid_coord K × grid_coord K × grid_coord K) :=
  (stencil_triples dx dq x_max x y z).filter fun t =>
    dist3sq t.1 t.2.1 t.2.2 < dq * dq ∧ c2i t.1 t.2.1 t.2.2 x_max = c

/-- The weight of a stencil triple: `idw_weight` at its squared distance. -/
def triple_weight (sqrt : K → K) (eps : K) (t : grid_coord K × grid_coord K × grid_coord K) : K :=
  idw_weight sqrt eps (dist3sq t.1 t.2.1 t.2.2)

/-- Sum of `w` over all accepted (particle, stencil triple) pairs whose linear index is `c`. -/
def weight_sum (sqrt : K → K) (eps : K) (xc yc zc : Nat → K) (dx dq : K) (x_max : Nat)
    (c : Nat) : K :=
  ((List.range (grid_size x_max)).map fun id =>
    ((accepted_at dx dq x_max (xc id) (yc id) (zc id) c).map (triple_weight sqrt eps)).sum).sum

/-- Sum of `w * a[id]` over all accepted (particle, stencil triple) pairs whose linear index
is `c`, for one component `a` of the particle quantity. -/
def weighted_sum (sqrt : K → K) (eps : K) (xc yc zc a : Nat → K) (dx dq : K) (x_max : Nat)
    (c : Nat) : K :=
  ((List.range (grid_size x_max)).map fun id =>
    ((accepted_at dx dq x_max (xc id) (yc id) (zc id) c).map
      fun t => triple_weight sqrt eps t * a id).sum).sum

end Contributions

/-! ## `interp1d.cpp` -/

section Interp

variable {K : Type} [LinearOrderedField K]

/-- The function `lerp`; `std::fma (x, y, z)` is `x * y + z`. -/
def lerp (a b t : K) : K :=
  if (a ≤ 0 ∧ b ≥ 0) ∨ (a ≥ 0 ∧ b ≤ 0) then t * b + (1 - t) * a
  else t * (b - a) + a

/-- The library function `std::lower_bound` on the range `xp`: the furthermost position such
that every element before it is `< v`. -/
def lower_bound : List K → K → Nat
  | [], _ => 0
  | a :: as, v => if a < v then lower_bound as v + 1 else 0

/-- Body of the loop of `interp1d`: the value written to `x[i]` when it holds `v`. -/
def interp1d_body (xp yp : List K) (v : K) : K :=
  let idx := lower_bound xp v
  if idx = 0 ∨ idx = xp.length then 0
  else
    let d0 := xp.getD idx 0 - xp.getD (idx - 1) 0
    let d1 := v - xp.getD (idx - 1) 0
    lerp (yp.getD (idx - 1) 0) (yp.getD idx 0) (d1 / d0)

/-- The function `interp1d`: the loop over `i = 0, ..., x_size - 1` overwriting `x[i]`. -/
def interp1d (xp yp x : List K) : List K :=
  (List.range x.length).foldl (fun x i => x.set i (interp1d_body xp yp (x.getD i 0))) x

end Interp

/-! ## Theorems about `interp1d` -/

section InterpTheorems

variable {K : Type} [LinearOrderedField K]

theorem loop_set_length (f : K → K) (x : List K) (n : Nat) :
    ((List.range n).foldl (fun x i => x.set i (f (x.getD i 0))) x).length = x.length := by
  induction n with
  | zero => simp
  | succ n ih =>
    rw [List.range_succ, List.foldl_append]
    simp only [List.foldl_cons, List.foldl_nil, List.length_set]
    exact ih

theorem loop_set_getElem? (f : K → K) (x : List K) (n : Nat) (i : Nat) :
    ((List.range n).foldl (fun x i => x.set i (f (x.getD i 0))) x)[i]? =
      if i < n then x[i]?.map f else x[i]? := by
  induction n generalizing i with
  | zero => simp
  | succ n ih =>
    rw [List.range_succ, List.foldl_append]
    simp only [List.foldl_cons, List.foldl_nil]
    rw [List.getElem?_set, loop_set_length]
    by_cases h : n = i
    · subst h
      rw [List.getD_eq_getElem?_getD, ih]
      by_cases hn : n < x.length
      · simp [hn, List.getElem?_eq_getElem hn]
      · have : x[n]? = none := List.getElem?_eq_none (by omega)
        simp [hn, this]
    · simp only [h, if_false, ih]
      by_cases hi : i < n
      · simp [hi, Nat.lt_succ_of_lt hi]
      · have : ¬ i < n + 1 := by omega
        simp [hi, this]

theorem interp1d_eq_map (xp yp x : List K) :
    interp1d xp yp x = x.map (interp1d_body xp yp) := by
  apply List.ext_getElem?
  intro i
  unfold interp1d
  rw [loop_set_getElem?]
  by_cases h : i < x.length
  · simp [h]
  · have : x[i]? = none := List.getElem?_eq_none (by omega)
    simp [h, this]

theorem lower_bound_le (xp : List K) (v : K) : lower_bound xp v ≤ xp.length := by
  induction xp with
  | nil => simp [lower_bound]
  | cons a as ih =>
    unfold lower_bound
    split_ifs <;> simp [ih]

theorem lower_bound_eq_length (xp : List K) (v : K) (h : ∀ a ∈ xp, a < v) :
    lower_bound xp v = xp.length := by
  induction xp with
  | nil => simp [lower_bound]
  | cons a as ih =>
    have ha : a < v := h a (by simp)
    simp [lower_bound, ha, ih (fun b hb => h b (by simp [hb]))]

theorem lower_bound_eq_zero (a : K) (as : List K) (v : K) (h : v ≤ a) :
    lower_bound (a :: as) v = 0 := by
  simp [lower_bound, not_lt.mpr h]

theorem interp1d_getD (xp yp x : List K) (i : Nat) (hi : i < x.length) :
    (interp1d xp yp x).getD i 0 = interp1d_body xp yp (x.getD i 0) := by
  rw [interp1d_eq_map, List.getD_eq_getElem _ _ (by simpa using hi), List.getD_eq_getElem _ _ hi,
    List.getElem_map]

theorem interp1d_body_le_first (xp yp : List K) (v : K) (h : v ≤ xp.getD 0 0)
    (hK : 1 ≤ xp.length) : interp1d_body xp yp v = 0 := by
  cases xp with
  | nil => simp at hK
  | cons a as =>
    have : lower_bound (a :: as) v = 0 := lower_bound_eq_zero a as v (by simpa using h)
    simp [interp1d_body, this]

theorem interp1d_body_gt_last (xp yp : List K) (v : K) (hs : xp.Sorted (· ≤ ·))
    (h : xp.getD (xp.length - 1) 0 < v) (hK : 1 ≤ xp.length) : interp1d_body xp yp v = 0 := by
  have hall : ∀ a ∈ xp, a < v := by
    intro a ha
    obtain ⟨n, hn, rfl⟩ := List.getElem_of_mem ha
    have hlast : xp.length - 1 < xp.length := by omega
    rw [List.getD_eq_getElem _ _ hlast] at h
    refine lt_of_le_of_lt ?_ h
    rcases Nat.lt_or_ge n (xp.length - 1) with hlt | hge
    · exact List.pairwise_iff_getElem.mp hs n (xp.length - 1) hn hlast hlt
    · have : n = xp.length - 1 := by omega
      subst this; exact le_refl _
  simp [interp1d_body, lower_bound_eq_length xp v hall]

/-- C8 (amended): for a sorted knot array of length at least one, every query with
`x[i] ≤ xp[0]` and every query with `x[i] > xp[K-1]` is replaced by `0`. -/
theorem interp1d_snap (xp yp x : List K) (hs : xp.Sorted (· ≤ ·)) (hK : 1 ≤ xp.length)
    (i : Nat) (hi : i < x.length)
    (hx : x.getD i 0 ≤ xp.getD 0 0 ∨ xp.getD (xp.length - 1) 0 < x.getD i 0) :
    (interp1d xp yp x).getD i 0 = 0 := by
  rw [interp1d_getD xp yp x i hi]
  rcases hx with hx | hx
  · exact interp1d_body_le_first xp yp _ hx hK
  · exact interp1d_body_gt_last xp yp _ hs hx hK

theorem interp1d_snap_witness :
    (interp1d ([0, 1] : List ℝ) [10, 20] [0]).getD 0 0 = 0 :=
  interp1d_snap [0, 1] [10, 20] [0] (by simp [List.Sorted]) (by simp) 0 (by simp)
    (Or.inl (by simp))

/-- C8 (counterexample): with the sorted knots `[0, 1]` and values `[10, 20]`, the query `1`
is at the last knot, yet it is replaced by `20` and not by `0`. -/
theorem interp1d_last_knot_counterexample :
    ([0, 1] : List ℝ).Sorted (· ≤ ·) ∧
    ([1] : List ℝ).getD 0 0 ≥ ([0, 1] : List ℝ).getD (([0, 1] : List ℝ).length - 1) 0 ∧
    (interp1d ([0, 1] : List ℝ) [10, 20] [1]).getD 0 0 = 20 ∧
    (interp1d ([0, 1] : List ℝ) [10, 20] [1]).getD 0 0 ≠ 0 := by
  have h : interp1d ([0, 1] : List ℝ) [10, 20] [1] = [20] := by
    rw [interp1d_eq_map]
    norm_num [interp1d_body, lower_bound, lerp]
  refine ⟨by simp [List.Sorted], by simp, ?_, ?_⟩ <;> rw [h] <;> norm_num

/-- C9: for a sorted knot array of length at least one, every query strictly below the first
knot or strictly above the last knot is replaced by exactly `0`, and the value written to a
position depends only on the knots, the values and the query held at that position: equal
queries, in whatever arrays and at whatever positions, get equal replacements. -/
theorem interp1d_no_extrapolation (xp yp x : List K) (hs : xp.Sorted (· ≤ ·))
    (hK : 1 ≤ xp.length) :
    (∀ i, i < x.length →
      (x.getD i 0 < xp.getD 0 0 ∨ xp.getD (xp.length - 1) 0 < x.getD i 0) →
      (interp1d xp yp x).getD i 0 = 0) ∧
    (∀ (y : List K) (i j : Nat), i < x.length → j < y.length → x.getD i 0 = y.getD j 0 →
      (interp1d xp yp x).getD i 0 = (interp1d xp yp y).getD j 0) ∧
    (interp1d xp yp x).length = x.length := by
  refine ⟨?_, ?_, ?_⟩
  · intro i hi hx
    rw [interp1d_getD xp yp x i hi]
    rcases hx with hx | hx
    · exact interp1d_body_le_first xp yp _ (le_of_lt hx) hK
    · exact interp1d_body_gt_last xp yp _ hs hx hK
  · intro y i j hi hj hxy
    rw [interp1d_getD xp yp x i hi, interp1d_getD xp yp y j hj, hxy]
  · rw [interp1d_eq_map, List.length_map]

theorem interp1d_no_extrapolation_witness :
    (∀ i, i < ([-1, 3] : List ℝ).length →
      (([-1, 3] : List ℝ).getD i 0 < ([0, 1, 2] : List ℝ).getD 0 0 ∨
        ([0, 1, 2] : List ℝ).getD (([0, 1, 2] : List ℝ).length - 1) 0
          < ([-1, 3] : List ℝ).getD i 0) →
      (interp1d [0, 1, 2] [10, 20, 30] ([-1, 3] : List ℝ)).getD i 0 = 0) ∧
    (∀ (y : List ℝ) (i j : Nat), i < ([-1, 3] : List ℝ).length → j < y.length →
      ([-1, 3] : List ℝ).getD i 0 = y.getD j 0 →
      (interp1d [0, 1, 2] [10, 20, 30] ([-1, 3] : List ℝ)).getD i 0
        = (interp1d [0, 1, 2] [10, 20, 30] y).getD j 0) ∧
    (interp1d [0, 1, 2] [10, 20, 30] ([-1, 3] : List ℝ)).length = ([-1, 3] : List ℝ).length :=
  interp1d_no_extrapolation [0, 1, 2] [10, 20, 30] [-1, 3] (by simp [List.Sorted]) (by simp)

end InterpTheorems


/-! ## Theorems about the coordinate mapper and the stencil builder -/

section KernelTheorems

variable {K : Type} [LinearOrderedField K] [FloorRing K]

/-- The value `fmod (y, e)`, shifted by `e` when negative, is the Euclidean remainder of `y`
modulo `e`. -/
theorem fmod_wrap (y : K) (e : Nat) (he : 1 ≤ e) :
    (if fmod y (e : K) < 0 then fmod y (e : K) + (e : K) else fmod y (e : K))
      = Int.fract (y / (e : K)) * (e : K) := by
  have hepos : (0 : K) < (e : K) := by exact_mod_cast he
  have hne : (e : K) ≠ 0 := ne_of_gt hepos
  have hy : y = y / (e : K) * (e : K) := by field_simp
  have hfr : Int.fract (y / (e : K)) * (e : K) = y - (⌊y / (e : K)⌋ : K) * (e : K) := by
    rw [Int.fract]; rw [sub_mul, ← hy]
  rw [hfr]
  unfold fmod trunc
  by_cases h0 : 0 ≤ y / (e : K)
  · rw [if_pos h0]
    have hge : 0 ≤ y - (⌊y / (e : K)⌋ : K) * (e : K) := by
      rw [← hfr]; exact mul_nonneg (Int.fract_nonneg _) hepos.le
    rw [if_neg (not_lt.mpr hge)]
  · rw [if_neg h0]
    by_cases hint : (⌈y / (e : K)⌉ : K) = y / (e : K)
    · have hfl : (⌊y / (e : K)⌋ : K) = y / (e : K) := by
        rw [← hint]; simp
      have hz : y - (⌈y / (e : K)⌉ : K) * (e : K) = 0 := by
        rw [hint, ← hy, sub_self]
      rw [hz, if_neg (lt_irrefl _), hfl, ← hy, sub_self]
    · have hlt : y / (e : K) < (⌈y / (e : K)⌉ : K) :=
        lt_of_le_of_ne (Int.le_ceil _) (Ne.symm hint)
      have hneg : y - (⌈y / (e : K)⌉ : K) * (e : K) < 0 := by
        have := mul_lt_mul_of_pos_right hlt hepos
        rw [← hy] at this
        linarith
      rw [if_pos hneg]
      have hc : (⌈y / (e : K)⌉ : K) = (⌊y / (e : K)⌋ : K) + 1 := by
        rcases Int.fract_eq_zero_or_add_one_sub_ceil (y / (e : K)) with h | h
        · exfalso
          apply hint
          have h1 : (⌊y / (e : K)⌋ : K) = y / (e : K) := by
            have := Int.floor_add_fract (y / (e : K))
            rw [h, add_zero] at this; exact this
          rw [← h1]; simp
        · have := Int.floor_add_fract (y / (e : K))
          linarith
      rw [hc]; ring

/-- The result of `trunc_coord` in closed form: with `r` the Euclidean remainder of `c / dc`
modulo `c_max`, the cell is `⌊r⌋` and the offset is the fractional part of `r`. -/
theorem trunc_coord_eq (c dc : K) (c_max : Nat) (he : 1 ≤ c_max) :
    trunc_coord c dc c_max =
      ⟨⌊Int.fract (c / dc / (c_max : K)) * (c_max : K)⌋.toNat,
        Int.fract (Int.fract (c / dc / (c_max : K)) * (c_max : K))⟩ := by
  have hepos : (0 : K) < (c_max : K) := by exact_mod_cast he
  have hr : 0 ≤ Int.fract (c / dc / (c_max : K)) * (c_max : K) :=
    mul_nonneg (Int.fract_nonneg _) hepos.le
  have hfl : 0 ≤ ⌊Int.fract (c / dc / (c_max : K)) * (c_max : K)⌋ := Int.floor_nonneg.mpr hr
  unfold trunc_coord
  simp only [fmod_wrap (c / dc) c_max he]
  simp only [trunc, if_pos hr]
  have hcast : ((⌊Int.fract (c / dc / (c_max : K)) * (c_max : K)⌋.toNat : Nat) : K)
      = (⌊Int.fract (c / dc / (c_max : K)) * (c_max : K)⌋ : K) := by
    rw [← Int.cast_natCast, Int.toNat_of_nonneg hfl]
  rw [hcast, Int.self_sub_floor]

/-- Shifting a coordinate by a whole number of periods `dc * c_max` does not change the
result of `trunc_coord`. -/
theorem trunc_coord_periodic (c dc : K) (c_max : Nat) (k : Int) (hdc : dc ≠ 0)
    (he : 1 ≤ c_max) :
    trunc_coord (c + (k : K) * dc * (c_max : K)) dc c_max = trunc_coord c dc c_max := by
  have hepos : (0 : K) < (c_max : K) := by exact_mod_cast he
  have hne : (c_max : K) ≠ 0 := ne_of_gt hepos
  have hshift : (c + (k : K) * dc * (c_max : K)) / dc / (c_max : K)
      = c / dc / (c_max : K) + (k : K) := by
    field_simp
    ring
  rw [trunc_coord_eq _ _ _ he, trunc_coord_eq _ _ _ he, hshift, Int.fract_add_int]

theorem coords_on_grid_periodic (c dc : K) (dq c_max : Nat) (k : Int) (hdc : dc ≠ 0)
    (he : 1 ≤ c_max) :
    coords_on_grid (c + (k : K) * dc * (c_max : K)) dc dq c_max = coords_on_grid c dc dq c_max := by
  unfold coords_on_grid
  rw [trunc_coord_periodic c dc c_max k hdc he]

/-- The number of entries of a stencil: the first loop pushes `dq - 1` entries (a `size_t`
difference), then come the mapped coordinate and the `dq` entries of the second loop. -/
theorem coords_on_grid_length (c dc : K) (dq c_max : Nat) :
    (coords_on_grid c dc dq c_max).length = usub dq 1 + 1 + dq := by
  simp only [coords_on_grid, List.length_append, List.length_map, List.length_reverse,
    List.length_range, List.length_singleton]

theorem usub_zero_one : usub 0 1 = 2 ^ 64 - 1 := by
  unfold usub SIZE_MOD
  norm_num

theorem usub_one_of_pos (dq : Nat) (h1 : 1 ≤ dq) (h2 : dq ≤ 2 ^ 64) : usub dq 1 = dq - 1 := by
  unfold usub SIZE_MOD
  have : dq + 2 ^ 64 - 1 = (dq - 1) + 2 ^ 64 := by omega
  rw [this, Nat.add_mod_right, Nat.mod_eq_of_lt (by omega)]

/-- For a radius between `1` and `2 ^ 64` the stencil has `2 * dq` entries. -/
theorem coords_on_grid_length_pos (c dc : K) (dq c_max : Nat) (h1 : 1 ≤ dq)
    (h2 : dq ≤ 2 ^ 64) : (coords_on_grid c dc dq c_max).length = 2 * dq := by
  rw [coords_on_grid_length, usub_one_of_pos dq h1 h2]; omega

/-- C4: for `dx ≠ 0` and `extent ≥ 1`, shifting a coordinate by `k * dx * extent` for an
integer `k` of any sign leaves `trunc_coord` unchanged (same cell, same offset), hence
`coords_on_grid` returns the same stencil for every radius, and the scatter phase makes the
same updates of the grid for a particle shifted by whole periods along the three axes. -/
theorem scatter_periodic (sqrt : K → K) (eps dx dq : K) (x_max : Nat) (hdx : dx ≠ 0)
    (he : 1 ≤ x_max) (c : K) (k : Int) (R : Nat) (x y z ax ay az : K) (kx ky kz : Int)
    (g : Grid K) :
    trunc_coord (c + (k : K) * dx * (x_max : K)) dx x_max = trunc_coord c dx x_max ∧
    coords_on_grid (c + (k : K) * dx * (x_max : K)) dx R x_max = coords_on_grid c dx R x_max ∧
    scatter_particle sqrt eps dx dq x_max (x + (kx : K) * dx * (x_max : K))
        (y + (ky : K) * dx * (x_max : K)) (z + (kz : K) * dx * (x_max : K)) ax ay az g
      = scatter_particle sqrt eps dx dq x_max x y z ax ay az g := by
  refine ⟨trunc_coord_periodic c dx x_max k hdx he, coords_on_grid_periodic c dx R x_max k hdx he,
    ?_⟩
  unfold scatter_particle
  rw [coords_on_grid_periodic x dx _ x_max kx hdx he, coords_on_grid_periodic y dx _ x_max ky hdx he,
    coords_on_grid_periodic z dx _ x_max kz hdx he]

theorem scatter_periodic_witness :
    trunc_coord ((1 / 2 : ℝ) + ((-3 : Int) : ℝ) * 1 * ((4 : Nat) : ℝ)) 1 4
      = trunc_coord (1 / 2 : ℝ) 1 4 ∧
    coords_on_grid ((1 / 2 : ℝ) + ((-3 : Int) : ℝ) * 1 * ((4 : Nat) : ℝ)) 1 2 4
      = coords_on_grid (1 / 2 : ℝ) 1 2 4 ∧
    scatter_particle Real.sqrt (1 / 8) 1 (3 / 2) 4 ((0 : ℝ) + ((1 : Int) : ℝ) * 1 * ((4 : Nat) : ℝ))
        ((0 : ℝ) + ((-1 : Int) : ℝ) * 1 * ((4 : Nat) : ℝ))
        ((0 : ℝ) + ((2 : Int) : ℝ) * 1 * ((4 : Nat) : ℝ)) 1 0 0
        ⟨fun _ => 0, fun _ => 0, fun _ => 0, fun _ => 0⟩
      = scatter_particle Real.sqrt (1 / 8) 1 (3 / 2) 4 0 0 0 1 0 0
        ⟨fun _ => 0, fun _ => 0, fun _ => 0, fun _ => 0⟩ :=
  scatter_periodic Real.sqrt (1 / 8) 1 (3 / 2) 4 one_ne_zero (by decide) (1 / 2) (-3) 2
    0 0 0 1 0 0 1 (-1) 2 ⟨fun _ => 0, fun _ => 0, fun _ => 0, fun _ => 0⟩

omit [FloorRing K] in
theorem scatter_cell_neg (sqrt : K → K) (eps dq : K) (x_max : Nat) (ax ay az : K) :
    scatter_cell sqrt eps (-dq) x_max ax ay az = scatter_cell sqrt eps dq x_max ax ay az := by
  funext g xg yg zg
  unfold scatter_cell
  rw [neg_mul_neg]

theorem scatter_particle_neg (sqrt : K → K) (eps dx dq : K) (x_max : Nat)
    (x y z ax ay az : K) :
    scatter_particle sqrt eps dx (-dq) x_max x y z ax ay az
      = scatter_particle sqrt eps dx dq x_max x y z ax ay az := by
  funext g
  unfold scatter_particle
  rw [abs_neg, scatter_cell_neg]

/-- C5: `fwd` run with the support radius `-dq` gives the same four buffers as `fwd` run with
`dq`, all other arguments and the initial buffers being equal; in both runs the stencil radius
is `⌈|dq|⌉` and a stencil triple is accepted exactly when `dist3sq < dq * dq`. -/
theorem fwd_neg_dq (sqrt : K → K) (eps : K) (xc yc zc ax ay az : Nat → K) (g : Grid K)
    (dx dq : K) (x_max : Nat) :
    fwd sqrt eps xc yc zc ax ay az g dx (-dq) x_max = fwd sqrt eps xc yc zc ax ay az g dx dq x_max ∧
    ⌈|(-dq)|⌉₊ = ⌈|dq|⌉₊ ∧
    ∀ xg yg zg : grid_coord K, (dist3sq xg yg zg < (-dq) * (-dq) ↔ dist3sq xg yg zg < dq * dq) := by
  refine ⟨?_, by rw [abs_neg], fun xg yg zg => by rw [neg_mul_neg]⟩
  unfold fwd scatter
  simp only [scatter_particle_neg]

/-- With radius `0` the stencil has `2 ^ 64` entries. -/
theorem coords_on_grid_length_zero (c dc : K) (c_max : Nat) :
    (coords_on_grid c dc 0 c_max).length = 2 ^ 64 := by
  rw [coords_on_grid_length, usub_zero_one]
  norm_num

/-- C10 (failing input): `fwd` called with `dq = 0` asks `coords_on_grid` for the radius
`⌈|0|⌉ = 0`; the loop counter `dq - 1` of the first loop wraps around to `2 ^ 64 - 1`, and the
stencil gets `2 ^ 64` entries instead of at most `2 * 0 + 1 = 1`. -/
theorem coords_on_grid_radius_zero :
    ⌈|(0 : ℝ)|⌉₊ = 0 ∧
    (coords_on_grid (0 : ℝ) 1 ⌈|(0 : ℝ)|⌉₊ 1).length = 2 ^ 64 ∧
    ¬ (coords_on_grid (0 : ℝ) 1 ⌈|(0 : ℝ)|⌉₊ 1).length ≤ 2 * ⌈|(0 : ℝ)|⌉₊ + 1 := by
  have h0 : ⌈|(0 : ℝ)|⌉₊ = 0 := by rw [abs_zero, Nat.ceil_zero]
  rw [h0, coords_on_grid_length_zero]
  refine ⟨rfl, rfl, ?_⟩
  norm_num

/-- The coordinate `0` is mapped to the cell `0` with offset `0`. -/
theorem trunc_coord_zero (dc : K) (c_max : Nat) (he : 1 ≤ c_max) :
    trunc_coord (0 : K) dc c_max = ⟨0, 0⟩ := by
  rw [trunc_coord_eq _ _ _ he]
  simp

end KernelTheorems

/-! ## Theorems about `fwd` -/

section FoldLemmas

variable {K : Type} [LinearOrderedField K]

/-- A left fold whose steps each add `t a` to a projection `φ` of the state adds the sum of
the `t a` to it. -/
theorem foldl_add_proj {α β : Type} (f : β → α → β) (φ : β → K) (t : α → K)
    (h : ∀ b a, φ (f b a) = φ b + t a) (l : List α) (b : β) :
    φ (l.foldl f b) = φ b + (l.map t).sum := by
  induction l generalizing b with
  | nil => simp
  | cons a l ih => rw [List.foldl_cons, ih, h, List.map_cons, List.sum_cons, add_assoc]

theorem sum_filter_map {α : Type} (l : List α) (p : α → Prop) [DecidablePred p] (t : α → K) :
    ((l.filter fun a => p a).map t).sum = (l.map fun a => if p a then t a else 0).sum := by
  induction l with
  | nil => simp
  | cons a l ih =>
    by_cases hp : p a
    · simp [List.filter_cons, hp, ih]
    · simp [List.filter_cons, hp, ih]

theorem sum_flatMap_map {α β : Type} (l : List α) (f : α → List β) (t : β → K) :
    ((l.flatMap f).map t).sum = (l.map fun a => ((f a).map t).sum).sum := by
  induction l with
  | nil => simp
  | cons a l ih => simp [ih]

/-- What one pass through the body of the innermost loop adds to the four buffers at the
cell `c`: the weight times the particle quantity (times `1` for `weights`) when the triple is
accepted and has linear index `c`, and nothing otherwise. -/
theorem scatter_cell_at (sqrt : K → K) (eps dq : K) (x_max : Nat) (ax ay az : K)
    (g : Grid K) (xg yg zg : grid_coord K) (c : Nat) :
    (scatter_cell sqrt eps dq x_max ax ay az g xg yg zg).resx c
      = g.resx c + (if dist3sq xg yg zg < dq * dq ∧ c2i xg yg zg x_max = c
          then triple_weight sqrt eps (xg, yg, zg) * ax else 0) ∧
    (scatter_cell sqrt eps dq x_max ax ay az g xg yg zg).resy c
      = g.resy c + (if dist3sq xg yg zg < dq * dq ∧ c2i xg yg zg x_max = c
          then triple_weight sqrt eps (xg, yg, zg) * ay else 0) ∧
    (scatter_cell sqrt eps dq x_max ax ay az g xg yg zg).resz c
      = g.resz c + (if dist3sq xg yg zg < dq * dq ∧ c2i xg yg zg x_max = c
          then triple_weight sqrt eps (xg, yg, zg) * az else 0) ∧
    (scatter_cell sqrt eps dq x_max ax ay az g xg yg zg).weights c
      = g.weights c + (if dist3sq xg yg zg < dq * dq ∧ c2i xg yg zg x_max = c
          then triple_weight sqrt eps (xg, yg, zg) * 1 else 0) := by
  unfold scatter_cell triple_weight
  by_cases h1 : dist3sq xg yg zg < dq * dq
  · by_cases h2 : c2i xg yg zg x_max = c
    · subst h2; simp [h1]
    · simp [h1, h2, Function.update_noteq (Ne.symm h2)]
  · simp [h1]

/-- The body of the normalize loop at the cell `id`, seen from the cell `c`. -/
theorem normalize_cell_at (g : Grid K) (id c : Nat) :
    (normalize_cell g id).weights = g.weights ∧
    (normalize_cell g id).resx c
      = (if c = id ∧ g.weights c ≠ 0 then g.resx c / g.weights c else g.resx c) ∧
    (normalize_cell g id).resy c
      = (if c = id ∧ g.weights c ≠ 0 then g.resy c / g.weights c else g.resy c) ∧
    (normalize_cell g id).resz c
      = (if c = id ∧ g.weights c ≠ 0 then g.resz c / g.weights c else g.resz c) := by
  unfold normalize_cell
  by_cases hn : g.weights id = 0
  · have hcn : ¬ (c = id ∧ g.weights c ≠ 0) := by rintro ⟨rfl, h⟩; exact h hn
    simp [hn, hcn]
  · by_cases hc : c = id
    · subst hc; simp [hn]
    · simp [hn, hc, Function.update_noteq hc]

/-- The normalize loop over the first `n` cells leaves `weights` alone and divides the three
result buffers by the weight at the cells below `n` whose weight is not zero. -/
theorem normalize_loop (g : Grid K) (n : Nat) (c : Nat) :
    ((List.range n).foldl normalize_cell g).weights = g.weights ∧
    ((List.range n).foldl normalize_cell g).resx c
      = (if c < n ∧ g.weights c ≠ 0 then g.resx c / g.weights c else g.resx c) ∧
    ((List.range n).foldl normalize_cell g).resy c
      = (if c < n ∧ g.weights c ≠ 0 then g.resy c / g.weights c else g.resy c) ∧
    ((List.range n).foldl normalize_cell g).resz c
      = (if c < n ∧ g.weights c ≠ 0 then g.resz c / g.weights c else g.resz c) := by
  induction n with
  | zero => simp
  | succ n ih =>
    obtain ⟨hw, hx, hy, hz⟩ := ih
    rw [List.range_succ, List.foldl_append]
    simp only [List.foldl_cons, List.foldl_nil]
    obtain ⟨kw, kx, ky, kz⟩ := normalize_cell_at ((List.range n).foldl normalize_cell g) n c
    rw [kw, kx, ky, kz, hw, hx, hy, hz]
    refine ⟨rfl, ?_, ?_, ?_⟩
    all_goals
      by_cases hc : c = n
      · subst hc
        by_cases h0 : g.weights c = 0
        · simp [h0]
        · simp [h0]
      · by_cases hlt : c < n
        · have : c < n + 1 := by omega
          simp [hc, hlt, this]
        · have : ¬ c < n + 1 := by omega
          simp [hc, hlt, this]

end FoldLemmas

section FwdTheorems

variable {K : Type} [LinearOrderedField K] [FloorRing K]

/-- The three nested loops over the stencils of one particle add to a projection `φ` of the
grid the sum, over the accepted triples with linear index `c`, of the weight times `a`,
whenever the loop body adds that term for each triple. -/
theorem scatter_particle_proj (sqrt : K → K) (eps dx dq : K) (x_max : Nat)
    (x y z ax ay az : K) (c : Nat) (φ : Grid K → K) (a : K)
    (hS : ∀ g xg yg zg, φ (scatter_cell sqrt eps dq x_max ax ay az g xg yg zg)
      = φ g + (if dist3sq xg yg zg < dq * dq ∧ c2i xg yg zg x_max = c
          then triple_weight sqrt eps (xg, yg, zg) * a else 0))
    (g : Grid K) :
    φ (scatter_particle sqrt eps dx dq x_max x y z ax ay az g)
      = φ g + ((accepted_at dx dq x_max x y z c).map fun t => triple_weight sqrt eps t * a).sum := by
  unfold scatter_particle accepted_at stencil_triples
  rw [sum_filter_map, sum_flatMap_map]
  rw [foldl_add_proj _ φ _ _ _ g]
  intro g1 xg
  rw [sum_flatMap_map]
  rw [foldl_add_proj _ φ _ _ _ g1]
  intro g2 yg
  rw [List.map_map]
  rw [foldl_add_proj _ φ _ _ _ g2]
  intro g3 zg
  exact hS g3 xg yg zg

/-- The scatter loop over all particles adds to a projection `φ` of the grid the weighted sum
of the component `a` of the particle quantities at the cell `c`. -/
theorem scatter_proj (sqrt : K → K) (eps : K) (xc yc zc ax ay az : Nat → K) (dx dq : K)
    (x_max : Nat) (c : Nat) (φ : Grid K → K) (a : Nat → K)
    (hS : ∀ id g xg yg zg,
      φ (scatter_cell sqrt eps dq x_max (ax id) (ay id) (az id) g xg yg zg)
      = φ g + (if dist3sq xg yg zg < dq * dq ∧ c2i xg yg zg x_max = c
          then triple_weight sqrt eps (xg, yg, zg) * a id else 0))
    (g : Grid K) :
    φ (scatter sqrt eps xc yc zc ax ay az dx dq x_max g)
      = φ g + weighted_sum sqrt eps xc yc zc a dx dq x_max c := by
  unfold scatter weighted_sum
  rw [foldl_add_proj _ φ _ _ _ g]
  intro g1 id
  exact scatter_particle_proj sqrt eps dx dq x_max _ _ _ _ _ _ c φ (a id) (hS id) g1

theorem weighted_sum_one (sqrt : K → K) (eps : K) (xc yc zc : Nat → K) (dx dq : K)
    (x_max : Nat) (c : Nat) :
    weighted_sum sqrt eps xc yc zc (fun _ => 1) dx dq x_max c
      = weight_sum sqrt eps xc yc zc dx dq x_max c := by
  unfold weighted_sum weight_sum
  simp only [mul_one]

/-- The four buffers after the scatter phase, cell by cell. -/
theorem scatter_at (sqrt : K → K) (eps : K) (xc yc zc ax ay az : Nat → K) (dx dq : K)
    (x_max : Nat) (g : Grid K) (c : Nat) :
    (scatter sqrt eps xc yc zc ax ay az dx dq x_max g).resx c
      = g.resx c + weighted_sum sqrt eps xc yc zc ax dx dq x_max c ∧
    (scatter sqrt eps xc yc zc ax ay az dx dq x_max g).resy c
      = g.resy c + weighted_sum sqrt eps xc yc zc ay dx dq x_max c ∧
    (scatter sqrt eps xc yc zc ax ay az dx dq x_max g).resz c
      = g.resz c + weighted_sum sqrt eps xc yc zc az dx dq x_max c ∧
    (scatter sqrt eps xc yc zc ax ay az dx dq x_max g).weights c
      = g.weights c + weight_sum sqrt eps xc yc zc dx dq x_max c := by
  refine ⟨?_, ?_, ?_, ?_⟩
  · exact scatter_proj sqrt eps xc yc zc ax ay az dx dq x_max c (fun g => g.resx c) ax
      (fun id g xg yg zg => (scatter_cell_at sqrt eps dq x_max _ _ _ g xg yg zg c).1) g
  · exact scatter_proj sqrt eps xc yc zc ax ay az dx dq x_max c (fun g => g.resy c) ay
      (fun id g xg yg zg => (scatter_cell_at sqrt eps dq x_max _ _ _ g xg yg zg c).2.1) g
  · exact scatter_proj sqrt eps xc yc zc ax ay az dx dq x_max c (fun g => g.resz c) az
      (fun id g xg yg zg => (scatter_cell_at sqrt eps dq x_max _ _ _ g xg yg zg c).2.2.1) g
  · rw [← weighted_sum_one]
    exact scatter_proj sqrt eps xc yc zc ax ay az dx dq x_max c (fun g => g.weights c)
      (fun _ => 1)
      (fun id g xg yg zg => (scatter_cell_at sqrt eps dq x_max _ _ _ g xg yg zg c).2.2.2) g

/-- The four buffers after `fwd`, cell by cell, with `W` the accumulated weight of the cell:
`weights` holds `W`, and each result buffer holds its accumulated value, divided by `W` at the
cells below `size` where `W` is not zero. -/
theorem fwd_at (sqrt : K → K) (eps : K) (xc yc zc ax ay az : Nat → K) (g : Grid K)
    (dx dq : K) (x_max : Nat) (c : Nat) :
    (fwd sqrt eps xc yc zc ax ay az g dx dq x_max).weights c
      = g.weights c + weight_sum sqrt eps xc yc zc dx dq x_max c ∧
    (fwd sqrt eps xc yc zc ax ay az g dx dq x_max).resx c
      = (if c < grid_size x_max ∧ g.weights c + weight_sum sqrt eps xc yc zc dx dq x_max c ≠ 0
          then (g.resx c + weighted_sum sqrt eps xc yc zc ax dx dq x_max c)
            / (g.weights c + weight_sum sqrt eps xc yc zc dx dq x_max c)
          else g.resx c + weighted_sum sqrt eps xc yc zc ax dx dq x_max c) ∧
    (fwd sqrt eps xc yc zc ax ay az g dx dq x_max).resy c
      = (if c < grid_size x_max ∧ g.weights c + weight_sum sqrt eps xc yc zc dx dq x_max c ≠ 0
          then (g.resy c + weighted_sum sqrt eps xc yc zc ay dx dq x_max c)
            / (g.weights c + weight_sum sqrt eps xc yc zc dx dq x_max c)
          else g.resy c + weighted_sum sqrt eps xc yc zc ay dx dq x_max c) ∧
    (fwd sqrt eps xc yc zc ax ay az g dx dq x_max).resz c
      = (if c < grid_size x_max ∧ g.weights c + weight_sum sqrt eps xc yc zc dx dq x_max c ≠ 0
          then (g.resz c + weighted_sum sqrt eps xc yc zc az dx dq x_max c)
            / (g.weights c + weight_sum sqrt eps xc yc zc dx dq x_max c)
          else g.resz c + weighted_sum sqrt eps xc yc zc az dx dq x_max c) := by
  obtain ⟨sx, sy, sz, sw⟩ := scatter_at sqrt eps xc yc zc ax ay az dx dq x_max g c
  obtain ⟨nw, nx, ny, nz⟩ :=
    normalize_loop (scatter sqrt eps xc yc zc ax ay az dx dq x_max g) (grid_size x_max) c
  unfold fwd normalize
  rw [nw, nx, ny, nz, sx, sy, sz, sw]
  exact ⟨rfl, rfl, rfl, rfl⟩

end FwdTheorems

section RealTheorems

end RealTheorems


section SmallCase

end SmallCase

/-! ## The cells touched by one particle -/

section PeriodicBall

variable {K : Type} [LinearOrderedField K] [FloorRing K]

theorem uadd_of_lt (a b : Nat) (h : a + b < 2 ^ 64) : uadd a b = a + b := by
  unfold uadd SIZE_MOD
  exact Nat.mod_eq_of_lt h

theorem umul_of_lt (a b : Nat) (h : a * b < 2 ^ 64) : umul a b = a * b := by
  unfold umul SIZE_MOD
  exact Nat.mod_eq_of_lt h

/-- The mapped coordinate in numbers: the cell is below `c_max`, the offset is in `[0, 1)`, and
cell plus offset is the coordinate in grid units up to a whole number of periods. -/
theorem trunc_coord_spec (c dc : K) (c_max : Nat) (he : 1 ≤ c_max) :
    (trunc_coord c dc c_max).c < c_max ∧ 0 ≤ (trunc_coord c dc c_max).d ∧
    (trunc_coord c dc c_max).d < 1 ∧
    ((trunc_coord c dc c_max).c : K) + (trunc_coord c dc c_max).d
      = c / dc - (⌊c / dc / (c_max : K)⌋ : K) * (c_max : K) := by
  have hepos : (0 : K) < (c_max : K) := by exact_mod_cast he
  have hne : (c_max : K) ≠ 0 := ne_of_gt hepos
  have hr0 : 0 ≤ Int.fract (c / dc / (c_max : K)) * (c_max : K) :=
    mul_nonneg (Int.fract_nonneg _) hepos.le
  have hr1 : Int.fract (c / dc / (c_max : K)) * (c_max : K) < (c_max : K) := by
    have := mul_lt_mul_of_pos_right (Int.fract_lt_one (c / dc / (c_max : K))) hepos
    rwa [one_mul] at this
  have hfl0 : 0 ≤ ⌊Int.fract (c / dc / (c_max : K)) * (c_max : K)⌋ := Int.floor_nonneg.mpr hr0
  have hfl1 : ⌊Int.fract (c / dc / (c_max : K)) * (c_max : K)⌋ < (c_max : Int) := by
    rw [Int.floor_lt]; exact_mod_cast hr1
  rw [trunc_coord_eq c dc c_max he]
  refine ⟨?_, Int.fract_nonneg _, Int.fract_lt_one _, ?_⟩
  · show ⌊Int.fract (c / dc / (c_max : K)) * (c_max : K)⌋.toNat < c_max
    omega
  · show ((⌊Int.fract (c / dc / (c_max : K)) * (c_max : K)⌋.toNat : Nat) : K)
        + Int.fract (Int.fract (c / dc / (c_max : K)) * (c_max : K)) = _
    rw [← Int.cast_natCast, Int.toNat_of_nonneg hfl0, Int.floor_add_fract]
    rw [Int.fract, sub_mul, div_mul_cancel₀ _ hne]

omit [LinearOrderedField K] [FloorRing K] in
/-- On cells below the extent, and when the cell count fits a `size_t`, `c2i` is the row-major
index without wrap-around. -/
theorem c2i_eq_of_lt (a b c : grid_coord K) (e : Nat) (ha : a.c < e) (hb : b.c < e)
    (hc : c.c < e) (hsz : e ^ 3 < 2 ^ 64) :
    c2i a b c e = a.c * e * e + b.c * e + c.c ∧ a.c * e * e + b.c * e + c.c < e ^ 3 := by
  have h1 : (a.c + 1) * e * e ≤ e * e * e :=
    Nat.mul_le_mul_right e (Nat.mul_le_mul_right e ha)
  have h2 : (b.c + 1) * e ≤ e * e := Nat.mul_le_mul_right e hb
  have h3 : e ^ 3 = e * e * e := by ring
  have h4 : (a.c + 1) * e * e = a.c * e * e + e * e := by ring
  have h5 : (b.c + 1) * e = b.c * e + e := by ring
  have h6 : a.c * e ≤ a.c * e * e := Nat.le_mul_of_pos_right _ (by omega)
  have hlt : a.c * e * e + b.c * e + c.c < e ^ 3 := by omega
  refine ⟨?_, hlt⟩
  unfold c2i
  rw [umul_of_lt a.c e (by omega), umul_of_lt (a.c * e) e (by omega),
    umul_of_lt b.c e (by omega), uadd_of_lt (a.c * e * e) (b.c * e) (by omega),
    uadd_of_lt (a.c * e * e + b.c * e) c.c (by omega)]

/-- The row-major index determines the three cells. -/
theorem row_major_inj (e a b c a' b' c' : Nat) (hb : b < e) (hc : c < e) (hb' : b' < e)
    (hc' : c' < e) (h : a * e * e + b * e + c = a' * e * e + b' * e + c') :
    a = a' ∧ b = b' ∧ c = c' := by
  have hpair : ∀ u v u' v' : Nat, v < e → v' < e → u * e + v = u' * e + v' → u = u' ∧ v = v' := by
    intro u v u' v' hv hv' huv
    have h1 : (u * e + v) % e = v := by
      rw [Nat.add_comm, Nat.add_mul_mod_self_right, Nat.mod_eq_of_lt hv]
    have h2 : (u' * e + v') % e = v' := by
      rw [Nat.add_comm, Nat.add_mul_mod_self_right, Nat.mod_eq_of_lt hv']
    have hvv : v = v' := by rw [← h1, ← h2, huv]
    subst hvv
    have hpos : 0 < e := by omega
    exact ⟨Nat.eq_of_mul_eq_mul_right hpos (Nat.add_right_cancel huv), rfl⟩
  have h' : (a * e + b) * e + c = (a' * e + b') * e + c' := by
    rw [Nat.add_mul, Nat.add_mul]; exact h
  obtain ⟨h1, h2⟩ := hpair _ _ _ _ hc hc' h'
  obtain ⟨h3, h4⟩ := hpair _ _ _ _ hb hb' h1
  exact ⟨h3, h4, h2⟩

end PeriodicBall

section PeriodicBallReal

end PeriodicBallReal

/-! ## The coordinate mapper and the stencil builder, on their own -/

section MapperTheorems

variable {K : Type} [LinearOrderedField K] [FloorRing K]

/-- Floor of a quotient by a positive whole number: `⌊y / e⌋ = ⌊y⌋ / e` (floor division). -/
theorem floor_div_natCast (y : K) (e : Nat) (he : 1 ≤ e) :
    ⌊y / (e : K)⌋ = ⌊y⌋ / (e : Int) := by
  have hepos : (0 : K) < (e : K) := by exact_mod_cast he
  have heI : (0 : Int) < (e : Int) := by exact_mod_cast he
  rw [Int.floor_eq_iff]
  constructor
  · rw [le_div_iff₀ hepos]
    have h1 : (⌊y⌋ / (e : Int)) * (e : Int) ≤ ⌊y⌋ := Int.ediv_mul_le _ (ne_of_gt heI)
    have h2 : (((⌊y⌋ / (e : Int)) * (e : Int) : Int) : K) ≤ (⌊y⌋ : K) := by exact_mod_cast h1
    push_cast at h2
    exact le_trans h2 (Int.floor_le y)
  · rw [div_lt_iff₀ hepos]
    have h1 : ⌊y⌋ < (⌊y⌋ / (e : Int) + 1) * (e : Int) := by
      have := Int.lt_ediv_add_one_mul_self ⌊y⌋ heI
      linarith
    have h2 : ⌊y⌋ + 1 ≤ (⌊y⌋ / (e : Int) + 1) * (e : Int) := h1
    have h3 : ((⌊y⌋ + 1 : Int) : K) ≤ (((⌊y⌋ / (e : Int) + 1) * (e : Int) : Int) : K) := by
      exact_mod_cast h2
    push_cast at h3
    exact lt_of_lt_of_le (Int.lt_floor_add_one y) h3

/-- C11: for `dc ≠ 0` and `cMax ≥ 1`, `trunc_coord c dc cMax` returns the cell index
`⌊c / dc⌋ mod cMax` (Euclidean remainder, so `0 ≤ cellIndex < cMax`) and the offset
`c / dc - ⌊c / dc⌋`, which lies in `[0, 1)`; the cell index is also the floor of the Euclidean
remainder of `c / dc` modulo `cMax`, for negative as well as non-negative `c`. -/
theorem trunc_coord_floor_mod (c dc : K) (cMax : Nat) (hdc : dc ≠ 0) (he : 1 ≤ cMax) :
    ((trunc_coord c dc cMax).c : Int) = ⌊c / dc⌋ % (cMax : Int) ∧
    (trunc_coord c dc cMax).c < cMax ∧
    (trunc_coord c dc cMax).d = c / dc - (⌊c / dc⌋ : K) ∧
    0 ≤ (trunc_coord c dc cMax).d ∧ (trunc_coord c dc cMax).d < 1 ∧
    ((trunc_coord c dc cMax).c : Int)
      = ⌊c / dc - (⌊c / dc / (cMax : K)⌋ : K) * (cMax : K)⌋ := by
  have _ := hdc
  have hepos : (0 : K) < (cMax : K) := by exact_mod_cast he
  have hne : (cMax : K) ≠ 0 := ne_of_gt hepos
  obtain ⟨hc, hd0, hd1, hsum⟩ := trunc_coord_spec c dc cMax he
  have hr : Int.fract (c / dc / (cMax : K)) * (cMax : K)
      = c / dc - ((⌊c / dc / (cMax : K)⌋ * (cMax : Int) : Int) : K) := by
    rw [Int.fract, sub_mul, div_mul_cancel₀ _ hne]; push_cast; ring
  have hcell : ((trunc_coord c dc cMax).c : Int)
      = ⌊c / dc⌋ - ⌊c / dc / (cMax : K)⌋ * (cMax : Int) := by
    rw [trunc_coord_eq c dc cMax he]
    have hnn : 0 ≤ ⌊Int.fract (c / dc / (cMax : K)) * (cMax : K)⌋ :=
      Int.floor_nonneg.mpr (mul_nonneg (Int.fract_nonneg _) hepos.le)
    show ((⌊Int.fract (c / dc / (cMax : K)) * (cMax : K)⌋.toNat : Nat) : Int) = _
    rw [Int.toNat_of_nonneg hnn, hr, Int.floor_sub_int]
  have hoff : (trunc_coord c dc cMax).d = c / dc - (⌊c / dc⌋ : K) := by
    rw [trunc_coord_eq c dc cMax he]
    show Int.fract (Int.fract (c / dc / (cMax : K)) * (cMax : K)) = _
    rw [hr, Int.fract_sub_int, Int.fract]
  refine ⟨?_, hc, hoff, hd0, hd1, ?_⟩
  · rw [hcell, floor_div_natCast _ _ he, Int.emod_def]
    ring
  · rw [hcell]
    have : c / dc - (⌊c / dc / (cMax : K)⌋ : K) * (cMax : K)
        = c / dc - ((⌊c / dc / (cMax : K)⌋ * (cMax : Int) : Int) : K) := by push_cast; ring
    rw [this, Int.floor_sub_int]

theorem trunc_coord_floor_mod_witness :
    ((trunc_coord (-9 / 2 : ℝ) 1 4).c : Int) = ⌊(-9 / 2 : ℝ) / 1⌋ % ((4 : Nat) : Int) ∧
    (trunc_coord (-9 / 2 : ℝ) 1 4).c < 4 ∧
    (trunc_coord (-9 / 2 : ℝ) 1 4).d = (-9 / 2 : ℝ) / 1 - (⌊(-9 / 2 : ℝ) / 1⌋ : ℝ) ∧
    0 ≤ (trunc_coord (-9 / 2 : ℝ) 1 4).d ∧ (trunc_coord (-9 / 2 : ℝ) 1 4).d < 1 ∧
    ((trunc_coord (-9 / 2 : ℝ) 1 4).c : Int)
      = ⌊(-9 / 2 : ℝ) / 1 - (⌊(-9 / 2 : ℝ) / 1 / ((4 : Nat) : ℝ)⌋ : ℝ) * ((4 : Nat) : ℝ)⌋ :=
  trunc_coord_floor_mod (-9 / 2) 1 4 one_ne_zero (by decide)

end MapperTheorems

section StencilTheorems

variable {K : Type} [LinearOrderedField K] [FloorRing K]

/-- The numbers below `2 * dq`, split at the position `dq - 1` of the mapped coordinate. -/
theorem range_window (dq : Nat) (h1 : 1 ≤ dq) :
    List.range (2 * dq)
      = (List.range (dq - 1)).reverse.map (fun i => dq - 1 - (i + 1)) ++ [dq - 1]
        ++ (List.range dq).map (fun i => dq - 1 + (i + 1)) := by
  have hsplit : 2 * dq = (dq - 1) + (1 + dq) := by omega
  have hrev : (List.range (dq - 1)).reverse.map (fun i => dq - 1 - (i + 1))
      = List.range (dq - 1) := by
    rw [List.range_eq_range', List.reverse_range', List.map_map, ← List.range_eq_range']
    conv_rhs => rw [← List.map_id (List.range (dq - 1))]
    apply List.map_congr_left
    intro i hi
    have hi' := List.mem_range.mp hi
    simp only [Function.comp, id]
    omega
  rw [hrev, hsplit, List.range_add, List.range_add, List.append_assoc]
  congr 1
  have hone : List.range 1 = [0] := rfl
  rw [hone, List.map_append, List.map_map]
  simp only [List.map_cons, List.map_nil, List.singleton_append, Nat.add_zero]
  congr 1
  apply List.map_congr_left
  intro i _
  simp only [Function.comp]
  omega

/-- The stencil as a window of signed steps: for a radius `dq ≥ 1` it is the list of the
entries at the steps `-(dq - 1), ..., -1, 0, 1, ..., dq`, in that order. -/
theorem coords_on_grid_eq_window (c dc : K) (dq c_max : Nat) (h1 : 1 ≤ dq) (h2 : dq ≤ 2 ^ 64) :
    coords_on_grid c dc dq c_max
      = (List.range (2 * dq)).map fun (i : Nat) =>
          stencil_entry (trunc_coord c dc c_max) c_max ((i : Int) - ((dq : Int) - 1)) := by
  rw [range_window dq h1]
  unfold coords_on_grid
  rw [usub_one_of_pos dq h1 h2]
  simp only [List.map_append, List.map_map, List.map_cons, List.map_nil]
  congr 1
  · congr 1
    · apply List.map_congr_left
      intro i hi
      have hi' : i < dq - 1 := by simpa using hi
      have hs : (((dq - 1 - (i + 1) : Nat) : Int) - ((dq : Int) - 1)) < 0 := by omega
      have hq : (((dq - 1 - (i + 1) : Nat) : Int) - ((dq : Int) - 1)).natAbs = i + 1 := by omega
      simp only [Function.comp, stencil_entry, if_pos hs, hq]
    · have hs : (((dq - 1 : Nat) : Int) - ((dq : Int) - 1)) = 0 := by omega
      simp only [stencil_entry, hs, lt_irrefl, if_false, if_true]
  · apply List.map_congr_left
    intro i _
    have hs : ¬ (((dq - 1 + (i + 1) : Nat) : Int) - ((dq : Int) - 1)) < 0 := by omega
    have hs0 : ¬ (((dq - 1 + (i + 1) : Nat) : Int) - ((dq : Int) - 1)) = 0 := by omega
    have hq : (((dq - 1 + (i + 1) : Nat) : Int) - ((dq : Int) - 1)).natAbs = i + 1 := by omega
    simp only [Function.comp, stencil_entry, if_neg hs, if_neg hs0, hq]

/-- C12 (amended): for every extent and every radius `dq ≥ 1` (below the largest `size_t`),
the stencil has exactly `2 * dq` entries, one for each signed step
`-(dq - 1), ..., -1, 0, 1, ..., dq`, in that order: it covers the cells from `dq - 1` steps
below the mapped cell to `dq` steps above it. -/
theorem coords_on_grid_window (c dc : K) (dq cMax : Nat) (h1 : 1 ≤ dq) (h2 : dq + 1 < 2 ^ 64) :
    (coords_on_grid c dc dq cMax).length = 2 * dq ∧
    coords_on_grid c dc dq cMax
      = (List.range (2 * dq)).map fun (i : Nat) =>
          stencil_entry (trunc_coord c dc cMax) cMax ((i : Int) - ((dq : Int) - 1)) := by
  exact ⟨coords_on_grid_length_pos c dc dq cMax h1 (by omega),
    coords_on_grid_eq_window c dc dq cMax h1 (by omega)⟩

theorem coords_on_grid_window_witness :
    (coords_on_grid (0 : ℝ) 1 2 4).length = 2 * 2 ∧
    coords_on_grid (0 : ℝ) 1 2 4
      = (List.range (2 * 2)).map fun (i : Nat) =>
          stencil_entry (trunc_coord (0 : ℝ) 1 4) 4 ((i : Int) - (((2 : Nat) : Int) - 1)) :=
  coords_on_grid_window 0 1 2 4 (by decide) (by norm_num)

/-- C12 (counterexample): with extent `4` and radius `1` the stencil of the coordinate `0`
has the two entries `(0, 0)` and `(1, 1)`, not `2 * 1 + 1 = 3`: there is no entry one step
below the mapped cell. -/
theorem coords_on_grid_length_counterexample :
    coords_on_grid (0 : ℝ) 1 1 4 = [⟨0, 0⟩, ⟨1, 1⟩] ∧
    (coords_on_grid (0 : ℝ) 1 1 4).length ≠ 2 * 1 + 1 := by
  have h : coords_on_grid (0 : ℝ) 1 1 4 = [⟨0, 0⟩, ⟨1, 1⟩] := by
    unfold coords_on_grid
    rw [trunc_coord_zero _ _ (by norm_num)]
    have h1 : usub 1 1 = 0 := by norm_num [usub, SIZE_MOD]
    rw [h1]
    norm_num [List.range_succ, above_entry, usub, uadd, SIZE_MOD]
  refine ⟨h, ?_⟩
  rw [h]
  decide

end StencilTheorems

section StencilReal

end StencilReal

/-! ## The cell indexer -/

section IndexerTheorems

variable {K : Type} [LinearOrderedField K]

/-- C17 (amended): for every extent `e ≥ 1` whose cell count `e ^ 3` is below `2 ^ 64` (no
`size_t` product or sum in `c2i` wraps around) and every triple of cell indices below `e`,
`c2i` returns `x * e ^ 2 + y * e + z`, which is below `e ^ 3`; two such triples with the same
`c2i` value are equal; and every number below `e ^ 3` is the `c2i` value of such a triple:
`c2i` is a bijection from `[0, e) ^ 3` onto `[0, e ^ 3)`. -/
theorem c2i_row_major (e : Nat) (he : 1 ≤ e) (hsz : e ^ 3 < 2 ^ 64) :
    (∀ a b c : grid_coord K, a.c < e → b.c < e → c.c < e →
      c2i a b c e = a.c * e ^ 2 + b.c * e + c.c ∧ c2i a b c e < e ^ 3) ∧
    (∀ a b c a' b' c' : grid_coord K, a.c < e → b.c < e → c.c < e → a'.c < e → b'.c < e →
      c'.c < e → c2i a b c e = c2i a' b' c' e → a.c = a'.c ∧ b.c = b'.c ∧ c.c = c'.c) ∧
    (∀ i, i < e ^ 3 → ∃ x y z : Nat, x < e ∧ y < e ∧ z < e ∧
      c2i (⟨x, 0⟩ : grid_coord K) ⟨y, 0⟩ ⟨z, 0⟩ e = i) := by
  refine ⟨?_, ?_, ?_⟩
  · intro a b c ha hb hc
    obtain ⟨h1, h2⟩ := c2i_eq_of_lt a b c e ha hb hc hsz
    rw [h1]
    have : a.c * e ^ 2 = a.c * e * e := by ring
    exact ⟨by rw [this], h2⟩
  · intro a b c a' b' c' ha hb hc ha' hb' hc' h
    rw [(c2i_eq_of_lt a b c e ha hb hc hsz).1, (c2i_eq_of_lt a' b' c' e ha' hb' hc' hsz).1] at h
    exact row_major_inj e _ _ _ _ _ _ hb hc hb' hc' h
  · intro i hi
    have hpos : 0 < e := he
    have h3 : e ^ 3 = e * e * e := by ring
    have hz : i % e < e := Nat.mod_lt _ hpos
    have hy : i / e % e < e := Nat.mod_lt _ hpos
    have hx : i / e / e < e := by
      rw [Nat.div_lt_iff_lt_mul hpos, Nat.div_lt_iff_lt_mul hpos]
      omega
    refine ⟨i / e / e, i / e % e, i % e, hx, hy, hz, ?_⟩
    rw [(c2i_eq_of_lt (⟨i / e / e, 0⟩ : grid_coord K) ⟨i / e % e, 0⟩ ⟨i % e, 0⟩ e hx hy hz hsz).1]
    show i / e / e * e * e + i / e % e * e + i % e = i
    have e1 : i / e / e * e + i / e % e = i / e := by
      rw [Nat.mul_comm]; exact Nat.div_add_mod (i / e) e
    have e2 : i / e * e + i % e = i := by
      rw [Nat.mul_comm]; exact Nat.div_add_mod i e
    calc i / e / e * e * e + i / e % e * e + i % e
        = (i / e / e * e + i / e % e) * e + i % e := by ring
      _ = i := by rw [e1, e2]

theorem c2i_row_major_witness :
    (∀ a b c : grid_coord ℝ, a.c < 4 → b.c < 4 → c.c < 4 →
      c2i a b c 4 = a.c * 4 ^ 2 + b.c * 4 + c.c ∧ c2i a b c 4 < 4 ^ 3) ∧
    (∀ a b c a' b' c' : grid_coord ℝ, a.c < 4 → b.c < 4 → c.c < 4 → a'.c < 4 → b'.c < 4 →
      c'.c < 4 → c2i a b c 4 = c2i a' b' c' 4 → a.c = a'.c ∧ b.c = b'.c ∧ c.c = c'.c) ∧
    (∀ i, i < 4 ^ 3 → ∃ x y z : Nat, x < 4 ∧ y < 4 ∧ z < 4 ∧
      c2i (⟨x, 0⟩ : grid_coord ℝ) ⟨y, 0⟩ ⟨z, 0⟩ 4 = i) :=
  c2i_row_major 4 (by decide) (by norm_num)

/-- C17 (counterexample): for the extent `e = 2 ^ 22` the cell `(2 ^ 20, 0, 0)` is in range,
its row-major index `2 ^ 20 * e ^ 2` is `2 ^ 64`, and `c2i` returns `0`, which is also the
value of the cell `(0, 0, 0)`. -/
theorem c2i_wrap_counterexample :
    2 ^ 20 < 2 ^ 22 ∧
    c2i (⟨2 ^ 20, 0⟩ : grid_coord ℝ) ⟨0, 0⟩ ⟨0, 0⟩ (2 ^ 22) = 0 ∧
    2 ^ 20 * (2 ^ 22) ^ 2 + 0 * 2 ^ 22 + 0 ≠ 0 ∧
    c2i (⟨2 ^ 20, 0⟩ : grid_coord ℝ) ⟨0, 0⟩ ⟨0, 0⟩ (2 ^ 22)
      = c2i (⟨0, 0⟩ : grid_coord ℝ) ⟨0, 0⟩ ⟨0, 0⟩ (2 ^ 22) := by
  refine ⟨by norm_num, ?_, by norm_num, ?_⟩ <;> norm_num [c2i, uadd, umul, SIZE_MOD]

end IndexerTheorems

/-! ## Range of the indices written by `fwd` -/

section RangeTheorems

variable {K : Type} [LinearOrderedField K] [FloorRing K]

end RangeTheorems

/-! ## Interior values of `interp1d` -/

section InteriorTheorems

variable {K : Type} [LinearOrderedField K]

/-- Every element before the lower bound is below the value. -/
theorem lower_bound_before (xp : List K) (v : K) (i : Nat) (hi : i < lower_bound xp v) :
    xp.getD i 0 < v := by
  induction xp generalizing i with
  | nil => simp [lower_bound] at hi
  | cons a as ih =>
    unfold lower_bound at hi
    by_cases ha : a < v
    · rw [if_pos ha] at hi
      cases i with
      | zero => simpa using ha
      | succ i => simpa using ih i (by omega)
    · rw [if_neg ha] at hi
      omega

/-- The element at the lower bound, when there is one, is not below the value. -/
theorem lower_bound_at (xp : List K) (v : K) (h : lower_bound xp v < xp.length) :
    v ≤ xp.getD (lower_bound xp v) 0 := by
  induction xp with
  | nil => simp at h
  | cons a as ih =>
    unfold lower_bound at h ⊢
    by_cases ha : a < v
    · rw [if_pos ha] at h ⊢
      simpa using ih (by simpa using h)
    · rw [if_neg ha]
      simpa using not_lt.mp ha

/-- The two branches of `lerp` compute the same value. -/
theorem lerp_eq (a b t : K) : lerp a b t = a + t * (b - a) := by
  unfold lerp
  split_ifs <;> ring

/-- C19: for a sorted knot array (duplicates allowed) and a query `v` with
`xp[0] < v ≤ xp[K-1]`, the index `idx` chosen by `lower_bound` satisfies `1 ≤ idx < K` and
`xp[idx-1] < v ≤ xp[idx]`, so the divisor `xp[idx] - xp[idx-1]` is strictly positive,
`t = (v - xp[idx-1]) / (xp[idx] - xp[idx-1])` lies in `(0, 1]`, and the value written is
`yp[idx-1] + t * (yp[idx] - yp[idx-1])` whichever branch of `lerp` is taken (both branches
are equal); it lies between `yp[idx-1]` and `yp[idx]`. -/
theorem interp1d_interior (xp yp x : List K) (hs : xp.Sorted (· ≤ ·)) (i : Nat)
    (hi : i < x.length) (hlo : xp.getD 0 0 < x.getD i 0)
    (hhi : x.getD i 0 ≤ xp.getD (xp.length - 1) 0) :
    1 ≤ lower_bound xp (x.getD i 0) ∧ lower_bound xp (x.getD i 0) < xp.length ∧
    xp.getD (lower_bound xp (x.getD i 0) - 1) 0 < x.getD i 0 ∧
    x.getD i 0 ≤ xp.getD (lower_bound xp (x.getD i 0)) 0 ∧
    0 < xp.getD (lower_bound xp (x.getD i 0)) 0 - xp.getD (lower_bound xp (x.getD i 0) - 1) 0 ∧
    0 < (x.getD i 0 - xp.getD (lower_bound xp (x.getD i 0) - 1) 0)
        / (xp.getD (lower_bound xp (x.getD i 0)) 0
          - xp.getD (lower_bound xp (x.getD i 0) - 1) 0) ∧
    (x.getD i 0 - xp.getD (lower_bound xp (x.getD i 0) - 1) 0)
        / (xp.getD (lower_bound xp (x.getD i 0)) 0
          - xp.getD (lower_bound xp (x.getD i 0) - 1) 0) ≤ 1 ∧
    (interp1d xp yp x).getD i 0
      = yp.getD (lower_bound xp (x.getD i 0) - 1) 0
        + (x.getD i 0 - xp.getD (lower_bound xp (x.getD i 0) - 1) 0)
          / (xp.getD (lower_bound xp (x.getD i 0)) 0
            - xp.getD (lower_bound xp (x.getD i 0) - 1) 0)
          * (yp.getD (lower_bound xp (x.getD i 0)) 0
            - yp.getD (lower_bound xp (x.getD i 0) - 1) 0) ∧
    (∀ a b t : K, t * b + (1 - t) * a = t * (b - a) + a) ∧
    min (yp.getD (lower_bound xp (x.getD i 0) - 1) 0) (yp.getD (lower_bound xp (x.getD i 0)) 0)
      ≤ (interp1d xp yp x).getD i 0 ∧
    (interp1d xp yp x).getD i 0
      ≤ max (yp.getD (lower_bound xp (x.getD i 0) - 1) 0)
          (yp.getD (lower_bound xp (x.getD i 0)) 0) := by
  have _ := hs
  obtain ⟨v, hv⟩ : ∃ v, v = x.getD i 0 := ⟨_, rfl⟩
  obtain ⟨idx, hidx⟩ : ∃ idx, idx = lower_bound xp v := ⟨_, rfl⟩
  rw [← hv] at hlo hhi ⊢
  rw [interp1d_getD xp yp x i hi, ← hv]
  have hle := lower_bound_le xp v
  have hx0 : xp ≠ [] := by
    rintro rfl
    simp at hlo hhi
    exact absurd hlo (not_lt.mpr hhi)
  have hlen : 0 < xp.length := List.length_pos.mpr hx0
  have h1 : 1 ≤ lower_bound xp v := by
    cases xp with
    | nil => exact absurd rfl hx0
    | cons a as =>
      have ha : a < v := by simpa using hlo
      simp [lower_bound, ha]
  have h2 : lower_bound xp v < xp.length := by
    rcases Nat.lt_or_ge (lower_bound xp v) xp.length with h | h
    · exact h
    · exfalso
      have := lower_bound_before xp v (xp.length - 1) (by omega)
      exact absurd this (not_lt.mpr hhi)
  have h3 : xp.getD (lower_bound xp v - 1) 0 < v := lower_bound_before xp v _ (by omega)
  have h4 : v ≤ xp.getD (lower_bound xp v) 0 := lower_bound_at xp v h2
  rw [← hidx] at h1 h2 h3 h4 ⊢
  have h5 : 0 < xp.getD idx 0 - xp.getD (idx - 1) 0 := by linarith
  have h6 : 0 < (v - xp.getD (idx - 1) 0) / (xp.getD idx 0 - xp.getD (idx - 1) 0) :=
    div_pos (by linarith) h5
  have h7 : (v - xp.getD (idx - 1) 0) / (xp.getD idx 0 - xp.getD (idx - 1) 0) ≤ 1 := by
    rw [div_le_one h5]; linarith
  have hval : interp1d_body xp yp v
      = yp.getD (idx - 1) 0
        + (v - xp.getD (idx - 1) 0) / (xp.getD idx 0 - xp.getD (idx - 1) 0)
          * (yp.getD idx 0 - yp.getD (idx - 1) 0) := by
    unfold interp1d_body
    simp only [← hidx]
    rw [if_neg (by omega), lerp_eq]
  refine ⟨h1, h2, h3, h4, h5, h6, h7, hval, fun a b t => by ring, ?_, ?_⟩
  · rw [hval]
    obtain ⟨t, ht⟩ : ∃ t, t = (v - xp.getD (idx - 1) 0)
        / (xp.getD idx 0 - xp.getD (idx - 1) 0) := ⟨_, rfl⟩
    rw [← ht] at h6 h7 ⊢
    rcases le_total (yp.getD (idx - 1) 0) (yp.getD idx 0) with h | h
    · rw [min_eq_left h]
      nlinarith [mul_nonneg h6.le (sub_nonneg.mpr h)]
    · rw [min_eq_right h]
      nlinarith [mul_nonneg (sub_nonneg.mpr h7) (sub_nonneg.mpr h)]
  · rw [hval]
    obtain ⟨t, ht⟩ : ∃ t, t = (v - xp.getD (idx - 1) 0)
        / (xp.getD idx 0 - xp.getD (idx - 1) 0) := ⟨_, rfl⟩
    rw [← ht] at h6 h7 ⊢
    rcases le_total (yp.getD (idx - 1) 0) (yp.getD idx 0) with h | h
    · rw [max_eq_right h]
      nlinarith [mul_nonneg (sub_nonneg.mpr h7) (sub_nonneg.mpr h)]
    · rw [max_eq_left h]
      nlinarith [mul_nonneg h6.le (sub_nonneg.mpr h)]

theorem interp1d_interior_witness :
    1 ≤ lower_bound ([0, 1, 2] : List ℝ) (([3 / 2] : List ℝ).getD 0 0) ∧ lower_bound ([0, 1, 2] : List ℝ) (([3 / 2] : List ℝ).getD 0 0) < ([0, 1, 2] : List ℝ).length ∧
    ([0, 1, 2] : List ℝ).getD (lower_bound ([0, 1, 2] : List ℝ) (([3 / 2] : List ℝ).getD 0 0) - 1) 0 < ([3 / 2] : List ℝ).getD 0 0 ∧
    ([3 / 2] : List ℝ).getD 0 0 ≤ ([0, 1, 2] : List ℝ).getD (lower_bound ([0, 1, 2] : List ℝ) (([3 / 2] : List ℝ).getD 0 0)) 0 ∧
    0 < ([0, 1, 2] : List ℝ).getD (lower_bound ([0, 1, 2] : List ℝ) (([3 / 2] : List ℝ).getD 0 0)) 0 - ([0, 1, 2] : List ℝ).getD (lower_bound ([0, 1, 2] : List ℝ) (([3 / 2] : List ℝ).getD 0 0) - 1) 0 ∧
    0 < (([3 / 2] : List ℝ).getD 0 0 - ([0, 1, 2] : List ℝ).getD (lower_bound ([0, 1, 2] : List ℝ) (([3 / 2] : List ℝ).getD 0 0) - 1) 0)
        / (([0, 1, 2] : List ℝ).getD (lower_bound ([0, 1, 2] : List ℝ) (([3 / 2] : List ℝ).getD 0 0)) 0
          - ([0, 1, 2] : List ℝ).getD (lower_bound ([0, 1, 2] : List ℝ) (([3 / 2] : List ℝ).getD 0 0) - 1) 0) ∧
    (([3 / 2] : List ℝ).getD 0 0 - ([0, 1, 2] : List ℝ).getD (lower_bound ([0, 1, 2] : List ℝ) (([3 / 2] : List ℝ).getD 0 0) - 1) 0)
        / (([0, 1, 2] : List ℝ).getD (lower_bound ([0, 1, 2] : List ℝ) (([3 / 2] : List ℝ).getD 0 0)) 0
          - ([0, 1, 2] : List ℝ).getD (lower_bound ([0, 1, 2] : List ℝ) (([3 / 2] : List ℝ).getD 0 0) - 1) 0) ≤ 1 ∧
    (interp1d ([0, 1, 2] : List ℝ) ([10, 20, 30] : List ℝ) ([3 / 2] : List ℝ)).getD 0 0
      = ([10, 20, 30] : List ℝ).getD (lower_bound ([0, 1, 2] : List ℝ) (([3 / 2] : List ℝ).getD 0 0) - 1) 0
        + (([3 / 2] : List ℝ).getD 0 0 - ([0, 1, 2] : List ℝ).getD (lower_bound ([0, 1, 2] : List ℝ) (([3 / 2] : List ℝ).getD 0 0) - 1) 0)
          / (([0, 1, 2] : List ℝ).getD (lower_bound ([0, 1, 2] : List ℝ) (([3 / 2] : List ℝ).getD 0 0)) 0
            - ([0, 1, 2] : List ℝ).getD (lower_bound ([0, 1, 2] : List ℝ) (([3 / 2] : List ℝ).getD 0 0) - 1) 0)
          * (([10, 20, 30] : List ℝ).getD (lower_bound ([0, 1, 2] : List ℝ) (([3 / 2] : List ℝ).getD 0 0)) 0
            - ([10, 20, 30] : List ℝ).getD (lower_bound ([0, 1, 2] : List ℝ) (([3 / 2] : List ℝ).getD 0 0) - 1) 0) ∧
    (∀ a b t : ℝ, t * b + (1 - t) * a = t * (b - a) + a) ∧
    min (([10, 20, 30] : List ℝ).getD (lower_bound ([0, 1, 2] : List ℝ) (([3 / 2] : List ℝ).getD 0 0) - 1) 0) (([10, 20, 30] : List ℝ).getD (lower_bound ([0, 1, 2] : List ℝ) (([3 / 2] : List ℝ).getD 0 0)) 0)
      ≤ (interp1d ([0, 1, 2] : List ℝ) ([10, 20, 30] : List ℝ) ([3 / 2] : List ℝ)).getD 0 0 ∧
    (interp1d ([0, 1, 2] : List ℝ) ([10, 20, 30] : List ℝ) ([3 / 2] : List ℝ)).getD 0 0
      ≤ max (([10, 20, 30] : List ℝ).getD (lower_bound ([0, 1, 2] : List ℝ) (([3 / 2] : List ℝ).getD 0 0) - 1) 0)
          (([10, 20, 30] : List ℝ).getD (lower_bound ([0, 1, 2] : List ℝ) (([3 / 2] : List ℝ).getD 0 0)) 0) :=
  interp1d_interior [0, 1, 2] [10, 20, 30] [3 / 2] (by simp [List.Sorted]) 0 (by simp)
    (by norm_num) (by norm_num)

end InteriorTheorems

/-! ## Order of the particles -/

section OrderTheorems

variable {K : Type} [LinearOrderedField K] [FloorRing K]

omit [FloorRing K] in
/-- A sum over a list does not change when its terms are read through a map `p` that permutes
the list. -/
theorem sum_map_perm {α : Type} (F : α → K) (p : α → α) (l : List α)
    (hp : List.Perm (l.map p) l) : (l.map fun i => F (p i)).sum = (l.map F).sum := by
  have h := List.Perm.sum_eq (List.Perm.map F hp)
  rw [List.map_map] at h
  exact h

/-- Reading the particles through a permutation `p` of the indices below `size` does not
change the weighted sum of a component at a cell. -/
theorem weighted_sum_perm (sqrt : K → K) (eps : K) (xc yc zc a : Nat → K) (dx dq : K)
    (x_max : Nat) (c : Nat) (p : Nat → Nat)
    (hp : List.Perm ((List.range (grid_size x_max)).map p) (List.range (grid_size x_max))) :
    weighted_sum sqrt eps (fun id => xc (p id)) (fun id => yc (p id)) (fun id => zc (p id))
        (fun id => a (p id)) dx dq x_max c
      = weighted_sum sqrt eps xc yc zc a dx dq x_max c :=
  sum_map_perm (fun id => ((accepted_at dx dq x_max (xc id) (yc id) (zc id) c).map
    fun t => triple_weight sqrt eps t * a id).sum) p _ hp

/-- The same for the sum of the weights. -/
theorem weight_sum_perm (sqrt : K → K) (eps : K) (xc yc zc : Nat → K) (dx dq : K)
    (x_max : Nat) (c : Nat) (p : Nat → Nat)
    (hp : List.Perm ((List.range (grid_size x_max)).map p) (List.range (grid_size x_max))) :
    weight_sum sqrt eps (fun id => xc (p id)) (fun id => yc (p id)) (fun id => zc (p id))
        dx dq x_max c
      = weight_sum sqrt eps xc yc zc dx dq x_max c :=
  sum_map_perm (fun id => ((accepted_at dx dq x_max (xc id) (yc id) (zc id) c).map
    (triple_weight sqrt eps)).sum) p _ hp

omit [LinearOrderedField K] [FloorRing K] in
/-- Two grids with the same four buffers are equal. -/
theorem grid_ext (g1 g2 : Grid K) (hx : ∀ c, g1.resx c = g2.resx c)
    (hy : ∀ c, g1.resy c = g2.resy c) (hz : ∀ c, g1.resz c = g2.resz c)
    (hw : ∀ c, g1.weights c = g2.weights c) : g1 = g2 := by
  cases g1
  cases g2
  simp only [Grid.mk.injEq]
  exact ⟨funext hx, funext hy, funext hz, funext hw⟩

/-- C20: for every input of `fwd` and every permutation `p` of the particle indices
`0, ..., size - 1` applied to `xc`, `yc`, `zc`, `ax`, `ay`, `az` alike, the sequential run of
`fwd` on the permuted arrays yields the same `resx`, `resy`, `resz` and `weights` as on the
original arrays, and so does the scatter phase alone. -/
theorem fwd_perm (sqrt : K → K) (eps : K) (xc yc zc ax ay az : Nat → K) (g : Grid K)
    (dx dq : K) (x_max : Nat) (p : Nat → Nat)
    (hp : List.Perm ((List.range (grid_size x_max)).map p) (List.range (grid_size x_max))) :
    fwd sqrt eps (fun id => xc (p id)) (fun id => yc (p id)) (fun id => zc (p id))
        (fun id => ax (p id)) (fun id => ay (p id)) (fun id => az (p id)) g dx dq x_max
      = fwd sqrt eps xc yc zc ax ay az g dx dq x_max ∧
    scatter sqrt eps (fun id => xc (p id)) (fun id => yc (p id)) (fun id => zc (p id))
        (fun id => ax (p id)) (fun id => ay (p id)) (fun id => az (p id)) dx dq x_max g
      = scatter sqrt eps xc yc zc ax ay az dx dq x_max g := by
  have hW := fun c => weight_sum_perm sqrt eps xc yc zc dx dq x_max c p hp
  have hS := fun (a : Nat → K) c => weighted_sum_perm sqrt eps xc yc zc a dx dq x_max c p hp
  constructor
  · apply grid_ext
    · intro c
      rw [(fwd_at sqrt eps _ _ _ _ _ _ g dx dq x_max c).2.1,
        (fwd_at sqrt eps xc yc zc ax ay az g dx dq x_max c).2.1, hW, hS ax]
    · intro c
      rw [(fwd_at sqrt eps _ _ _ _ _ _ g dx dq x_max c).2.2.1,
        (fwd_at sqrt eps xc yc zc ax ay az g dx dq x_max c).2.2.1, hW, hS ay]
    · intro c
      rw [(fwd_at sqrt eps _ _ _ _ _ _ g dx dq x_max c).2.2.2,
        (fwd_at sqrt eps xc yc zc ax ay az g dx dq x_max c).2.2.2, hW, hS az]
    · intro c
      rw [(fwd_at sqrt eps _ _ _ _ _ _ g dx dq x_max c).1,
        (fwd_at sqrt eps xc yc zc ax ay az g dx dq x_max c).1, hW]
  · apply grid_ext
    · intro c
      rw [(scatter_at sqrt eps _ _ _ _ _ _ dx dq x_max g c).1,
        (scatter_at sqrt eps xc yc zc ax ay az dx dq x_max g c).1, hS ax]
    · intro c
      rw [(scatter_at sqrt eps _ _ _ _ _ _ dx dq x_max g c).2.1,
        (scatter_at sqrt eps xc yc zc ax ay az dx dq x_max g c).2.1, hS ay]
    · intro c
      rw [(scatter_at sqrt eps _ _ _ _ _ _ dx dq x_max g c).2.2.1,
        (scatter_at sqrt eps xc yc zc ax ay az dx dq x_max g c).2.2.1, hS az]
    · intro c
      rw [(scatter_at sqrt eps _ _ _ _ _ _ dx dq x_max g c).2.2.2,
        (scatter_at sqrt eps xc yc zc ax ay az dx dq x_max g c).2.2.2, hW]

theorem grid_size_two : grid_size 2 = 8 := by
  norm_num [grid_size, umul, SIZE_MOD]

theorem fwd_perm_witness :
    fwd Real.sqrt 1 (fun id => (fun n : Nat => (n : ℝ) / 4) ((fun i => 7 - i) id))
        (fun id => (fun _ => (0 : ℝ)) ((fun i => 7 - i) id))
        (fun id => (fun _ => (0 : ℝ)) ((fun i => 7 - i) id))
        (fun id => (fun n : Nat => (n : ℝ)) ((fun i => 7 - i) id))
        (fun id => (fun _ => (0 : ℝ)) ((fun i => 7 - i) id))
        (fun id => (fun _ => (0 : ℝ)) ((fun i => 7 - i) id))
        ⟨fun _ => 0, fun _ => 0, fun _ => 0, fun _ => 0⟩ 1 1 2
      = fwd Real.sqrt 1 (fun n : Nat => (n : ℝ) / 4) (fun _ => (0 : ℝ)) (fun _ => (0 : ℝ))
        (fun n : Nat => (n : ℝ)) (fun _ => (0 : ℝ)) (fun _ => (0 : ℝ))
        ⟨fun _ => 0, fun _ => 0, fun _ => 0, fun _ => 0⟩ 1 1 2 ∧
    scatter Real.sqrt 1 (fun id => (fun n : Nat => (n : ℝ) / 4) ((fun i => 7 - i) id))
        (fun id => (fun _ => (0 : ℝ)) ((fun i => 7 - i) id))
        (fun id => (fun _ => (0 : ℝ)) ((fun i => 7 - i) id))
        (fun id => (fun n : Nat => (n : ℝ)) ((fun i => 7 - i) id))
        (fun id => (fun _ => (0 : ℝ)) ((fun i => 7 - i) id))
        (fun id => (fun _ => (0 : ℝ)) ((fun i => 7 - i) id)) 1 1 2
        ⟨fun _ => 0, fun _ => 0, fun _ => 0, fun _ => 0⟩
      = scatter Real.sqrt 1 (fun n : Nat => (n : ℝ) / 4) (fun _ => (0 : ℝ)) (fun _ => (0 : ℝ))
        (fun n : Nat => (n : ℝ)) (fun _ => (0 : ℝ)) (fun _ => (0 : ℝ)) 1 1 2
        ⟨fun _ => 0, fun _ => 0, fun _ => 0, fun _ => 0⟩ :=
  fwd_perm Real.sqrt 1 (fun n : Nat => (n : ℝ) / 4) (fun _ => 0) (fun _ => 0)
    (fun n : Nat => (n : ℝ)) (fun _ => 0) (fun _ => 0)
    ⟨fun _ => 0, fun _ => 0, fun _ => 0, fun _ => 0⟩ 1 1 2 (fun i => 7 - i)
    (by rw [grid_size_two]; decide)

end OrderTheorems

end SynthMagTurb
